import Mathlib

/-!
Verification of the DICOM-to-NIfTI batch conversion pipeline
(`dicom2nifti.py`) against its natural-language specification.

The development shallowly embeds the pure logic of the converter:
string sanitisation (`_clean_path_name`), path manipulation
(`os.path.relpath` / `dirname` / `basename` on the POSIX paths the
program produces), folder scanning (`scan_dicom_folders` over an
abstract directory tree), metadata extraction
(`_analyze_dicom_folder`), output path resolution
(`_get_output_subdir`), the external-converter invocation
(`_convert_with_dcm2niix`, with the subprocess and the post-run
directory listing supplied as abstract data), and the top-level
driver (`convert_all`, with per-unit conversion outcomes supplied as
abstract data).
-/

namespace Dicom2Nifti

/-- ASCII whitespace as recognised by Python's `str.split()` /
`str.strip()` (space, tab, newline, carriage return, vertical tab,
form feed).  The program only feeds paths and DICOM header strings
through these functions. -/
def isPyWhite (c : Char) : Bool :=
  c = ' ' || c = '\t' || c = '\n' || c = '\r' || c = Char.ofNat 11 || c = Char.ofNat 12

/-- Python `str.strip()` on the character list: drop whitespace from
both ends. -/
def stripChars (l : List Char) : List Char :=
  ((l.dropWhile isPyWhite).reverse.dropWhile isPyWhite).reverse

/-- Python `str.strip()`. -/
def pyStrip (s : String) : String :=
  ⟨stripChars s.data⟩

/-- Accumulator worker for Python `str.split()` with no argument:
split on whitespace runs, discarding empty words.  `acc` holds the
current word reversed. -/
def pySplitAux : List Char → List Char → List (List Char)
  | [], acc => if acc.isEmpty then [] else [acc.reverse]
  | c :: cs, acc =>
    if isPyWhite c then
      if acc.isEmpty then pySplitAux cs [] else acc.reverse :: pySplitAux cs []
    else
      pySplitAux cs (c :: acc)

/-- Python `str.split()` with no argument. -/
def pySplit (l : List Char) : List (List Char) :=
  pySplitAux l []

/-- Python `sep.join(words)` for a one-character separator. -/
def joinSep (sep : Char) : List (List Char) → List Char
  | [] => []
  | [w] => w
  | w :: w2 :: ws => w ++ sep :: joinSep sep (w2 :: ws)

/-- The characters `_clean_path_name` replaces: `< > : " | ? *`. -/
def invalidChars : List Char :=
  ['<', '>', ':', '"', '|', '?', '*']

/-- The `name.replace(char, '_')` loop of `_clean_path_name`: each
character of `invalidChars` is replaced by an underscore in turn. -/
def replaceInvalid (l : List Char) : List Char :=
  invalidChars.foldl (fun acc c => acc.map (fun x => if x = c then '_' else x)) l

/-- `_clean_path_name`: replace the invalid characters by `_`, then
`' '.join(name.split())` (collapse whitespace runs to single spaces
and trim), then a final `strip()`. -/
def cleanPathName (s : String) : String :=
  ⟨stripChars (joinSep ' ' (pySplit (replaceInvalid s.data)))⟩

example : cleanPathName "a<b>c" = "a_b_c" := by decide
example : cleanPathName "  T1   MPRAGE  " = "T1 MPRAGE" := by decide
example : cleanPathName "x:y|z?w*q\"e" = "x_y_z_w_q_e" := by decide
example : pyStrip "  ab c " = "ab c" := by decide

/-! ### Path manipulation

The program manipulates POSIX path strings with `os.path.relpath`,
`os.path.dirname`, `os.path.basename` and `os.path.join`.  The paths
involved are the absolute, normalised directory paths produced by
`os.walk` below the resolved input root, and the relative paths
`os.path.relpath` derives from them, so the embeddings below are
faithful on that domain (no trailing slashes, no `.`/`..` segments in
the inputs). -/

/-- Worker for splitting a character list at `/`, keeping empty
segments (the behaviour of `str.split('/')`). -/
def splitSlashAux : List Char → List Char → List (List Char)
  | [], acc => [acc.reverse]
  | c :: cs, acc =>
    if c = '/' then acc.reverse :: splitSlashAux cs [] else splitSlashAux cs (c :: acc)

/-- Split a character list at `/`, keeping empty segments. -/
def splitSlash (l : List Char) : List (List Char) :=
  splitSlashAux l []

/-- `os.path.basename`: everything after the last `/` (the whole
string when there is no `/`). -/
def basename (s : String) : String :=
  ⟨(splitSlash s.data).getLastD []⟩

/-- `os.path.dirname`: everything before the last `/` (empty when
there is no `/`).  Faithful for the relative paths the program feeds
it (no leading slash). -/
def dirname (s : String) : String :=
  ⟨joinSep '/' (splitSlash s.data).dropLast⟩

/-- The non-empty segments of a path, for `os.path.relpath`. -/
def pathSegs (s : String) : List (List Char) :=
  (splitSlash s.data).filter (fun seg => ¬seg.isEmpty)

/-- Drop the common leading segments of two segment lists. -/
def dropCommon : List (List Char) → List (List Char) → List (List Char) × List (List Char)
  | a :: as, b :: bs => if a = b then dropCommon as bs else (a :: as, b :: bs)
  | as, bs => (as, bs)

/-- `os.path.relpath(path, start)` on absolute normalised POSIX
paths: drop the common leading segments, replace each remaining
segment of `start` by `..`, and append the remaining segments of
`path`; the empty result is `"."`. -/
def relpath (path start : String) : String :=
  let pr := dropCommon (pathSegs path) (pathSegs start)
  let segs := pr.2.map (fun _ => ['.', '.']) ++ pr.1
  if segs.isEmpty then "." else ⟨joinSep '/' segs⟩

example : relpath "/in/a" "/in" = "a" := by decide
example : relpath "/in/a/b" "/in" = "a/b" := by decide
example : relpath "/in" "/in" = "." := by decide
example : basename "a/b/c" = "c" := by decide
example : dirname "a/b/c" = "a/b" := by decide
example : basename "a" = "a" := by decide
example : dirname "a" = "" := by decide
example : basename "." = "." := by decide

/-- `Path(base) / rel` followed by `str()`: pathlib collapses a lone
`.` component, so joining with `"."` returns the base unchanged. -/
def pathJoin (base rel : String) : String :=
  if rel = "." then base else base ++ "/" ++ rel

/-- Decides whether the first character list is a leading block of
the second. -/
def isPrefChars : List Char → List Char → Bool
  | [], _ => true
  | _ :: _, [] => false
  | a :: as, b :: bs => a = b && isPrefChars as bs

/-- Decides whether `needle` occurs contiguously inside `hay`
(Python's `needle in hay` on strings). -/
def isSubChars (needle hay : List Char) : Bool :=
  isPrefChars needle hay ||
    match hay with
    | [] => false
    | _ :: h => isSubChars needle h

/-- Python's `needle in hay` substring test. -/
def strContains (hay needle : String) : Bool :=
  isSubChars needle.data hay.data

/-- Decides whether `suffix` is a trailing block of `hay` (Python's
`str.endswith`, used to model which names a `*.ext` glob matches). -/
def strEndsWith (hay suf : String) : Bool :=
  isPrefChars suf.data.reverse hay.data.reverse

example : strContains "P001_x" "P001" = true := by decide
example : strContains "abc" "" = true := by decide
example : strContains "ab" "ba" = false := by decide
example : strEndsWith "a.nii.gz" ".nii.gz" = true := by decide
example : strEndsWith "a.nii" ".nii.gz" = false := by decide

/-! ### Python `sorted()` on strings

Python sorts strings by code-point lexicographic order with the `<`
comparison; an executable insertion sort over an executable
lexicographic comparison models it (the input lists here are
duplicate-free, so any correct sort yields the same list as CPython's
stable mergesort). -/

/-- Executable strict lexicographic order on character lists
(code-point comparison, as Python compares strings). -/
def lexLtChars : List Char → List Char → Bool
  | [], [] => false
  | [], _ :: _ => true
  | _ :: _, [] => false
  | a :: as, b :: bs => a < b || (a = b && lexLtChars as bs)

/-- Executable `<` on strings. -/
def strLtB (a b : String) : Bool :=
  lexLtChars a.data b.data

/-- Insert `x` into a sorted list, before the first element not below
it. -/
def orderedInsertStr (x : String) : List String → List String
  | [] => [x]
  | y :: ys => if strLtB y x then y :: orderedInsertStr x ys else x :: y :: ys

/-- Python `sorted()` on a list of strings. -/
def pySorted : List String → List String
  | [] => []
  | x :: xs => orderedInsertStr x (pySorted xs)

example : pySorted ["T2", "DWI", "T1"] = ["DWI", "T1", "T2"] := by decide

/-! ### DICOM data model

A file on disk is abstracted by the outcome of the two probes the
program applies to it: the 4-byte magic check at offset 128, and the
header-only `pydicom.dcmread` parse (`none` when the parse raises).
A parsed dataset is abstracted by the optional header fields the
program reads (`hasattr`/`getattr` probing). -/

/-- The header fields of a parsed DICOM dataset that the program
reads; `none` models an absent attribute. -/
structure DicomMeta where
  seriesInstanceUID : Option String := none
  seriesDescription : Option String := none
  patientID : Option String := none
  studyDate : Option String := none
  studyDescription : Option String := none
deriving DecidableEq, Repr

/-- A candidate file: whether bytes 128..132 equal `DICM`, and the
result of the permissive header parse (`none` when it raises). -/
structure FileData where
  hasDicmMagic : Bool
  parse : Option DicomMeta
deriving DecidableEq, Repr

/-- The `DicomFolder` dataclass. -/
structure DicomFolder where
  folder_path : String
  folder_name : String
  patient_id : String := ""
  study_date : String := ""
  study_description : String := ""
  series_count : Nat := 0
  file_count : Nat := 0
  series_descriptions : List String := []
deriving DecidableEq, Repr

/-- `_is_dicom_file`: true on the `DICM` magic; otherwise true iff
the permissive parse succeeds and the dataset has a
`SeriesInstanceUID` attribute; any exception yields false. -/
def isDicomFile (f : FileData) : Bool :=
  f.hasDicmMagic ||
    match f.parse with
    | some d => d.seriesInstanceUID.isSome
    | none => false

/-- Adding an element to a Python `set`, represented as a duplicate-free
list: a no-op when already present. -/
def insertNew (x : String) (l : List String) : List String :=
  if x ∈ l then l else l ++ [x]

/-- The per-file accumulation loop of `_analyze_dicom_folder` over the
sampled files: collect the distinct series instance UIDs and the
distinct non-empty stripped series descriptions; files whose parse
raises are skipped. -/
def collectSeries : List FileData → List String × List String → List String × List String
  | [], st => st
  | f :: fs, st =>
    match f.parse with
    | none => collectSeries fs st
    | some d =>
      let uids := match d.seriesInstanceUID with
        | some u => insertNew u st.1
        | none => st.1
      let descs := match d.seriesDescription with
        | some sd => if pyStrip sd ≠ "" then insertNew (pyStrip sd) st.2 else st.2
        | none => st.2
      collectSeries fs (uids, descs)

/-- `_analyze_dicom_folder`: read the first file for the identity
fields (returning `none` — the folder is dropped — when that parse
raises, and on an empty list, where `dicom_files[0]` raises
`IndexError`); accumulate series UIDs and descriptions over the first
100 files only; report `file_count` over the whole list; sort the
distinct descriptions. -/
def analyzeDicomFolder (folder_path : String) (dicom_files : List FileData) :
    Option DicomFolder :=
  match dicom_files with
  | [] => none
  | f0 :: _ =>
    match f0.parse with
    | none => none
    | some dcm =>
      let st := collectSeries (dicom_files.take 100) ([], [])
      some
        { folder_path := folder_path
          folder_name := basename folder_path
          patient_id := pyStrip (dcm.patientID.getD "Unknown")
          study_date := pyStrip (dcm.studyDate.getD "")
          study_description := pyStrip (dcm.studyDescription.getD "")
          series_count := if st.1.isEmpty then st.2.length else st.1.length
          file_count := dicom_files.length
          series_descriptions := pySorted st.2 }

/-- The input directory tree walked by `os.walk`: each node carries
its absolute path, its direct child files, and its subdirectories (in
walk order). -/
inductive DirTree where
  | node (path : String) (files : List FileData) (subdirs : List DirTree)

/-- The path of the root node. -/
def DirTree.path : DirTree → String
  | .node p _ _ => p

/-- The direct child files of the root node. -/
def DirTree.files : DirTree → List FileData
  | .node _ fs _ => fs

/-- The subdirectories of the root node. -/
def DirTree.subdirs : DirTree → List DirTree
  | .node _ _ ds => ds

mutual

/-- Every directory reached by `os.walk` from the root (top-down:
the root itself, then each subtree in order). -/
def allDirs : DirTree → List DirTree
  | .node p fs ds => .node p fs ds :: allDirsList ds

/-- `allDirs` over a forest. -/
def allDirsList : List DirTree → List DirTree
  | [] => []
  | t :: ts => allDirs t ++ allDirsList ts

end

mutual

/-- `scan_dicom_folders`: walk the tree; for each directory whose
direct children contain imaging files, attempt
`_analyze_dicom_folder`; record `path → info` on success, skip the
directory when the analysis fails.  The resulting association list is
in discovery order (the insertion order of the Python dict). -/
def scanDicomFolders : DirTree → List (String × DicomFolder)
  | .node p fs ds =>
    (let dicom_files := fs.filter isDicomFile
     if dicom_files.isEmpty then []
     else
       match analyzeDicomFolder p dicom_files with
       | some info => [(p, info)]
       | none => []) ++ scanList ds

/-- `scanDicomFolders` over a forest. -/
def scanList : List DirTree → List (String × DicomFolder)
  | [] => []
  | t :: ts => scanDicomFolders t ++ scanList ts

end

/-! ### Output path resolution and conversion -/

/-- The converter's configuration (`DicomToNiftiConverter.__init__`):
the resolved input and output roots and the four option flags. -/
structure Config where
  input_dir : String
  output_dir : String
  compress : Bool := true
  use_dcm2niix : Bool := true
  organize_by_folder : Bool := true
  include_patient_info : Bool := true
deriving DecidableEq, Repr

/-- `_get_output_subdir`: mirror the source hierarchy under the
output root when `organize_by_folder`, cleaning the relative path and
optionally renaming the leaf to `patientId_studyDate_leaf` when the
patient id is not already a substring of the cleaned relative path;
in flat mode, always the output root itself. -/
def getOutputSubdir (cfg : Config) (folder_info : DicomFolder) : String :=
  if cfg.organize_by_folder then
    let rel0 := relpath folder_info.folder_path cfg.input_dir
    let rel1 := cleanPathName rel0
    let rel2 :=
      if cfg.include_patient_info && folder_info.patient_id != "" then
        if strContains rel1 folder_info.patient_id then rel1
        else
          let parent := dirname rel1
          let leaf := basename rel1
          let parts :=
            (if folder_info.patient_id != "" then [cleanPathName folder_info.patient_id]
             else []) ++
            (if folder_info.study_date != "" then [folder_info.study_date] else []) ++
            [leaf]
          let new_folder_name := ⟨joinSep '_' (parts.map String.data)⟩
          if parent != "" then parent ++ "/" ++ new_folder_name else new_folder_name
      else rel1
    pathJoin cfg.output_dir rel2
  else cfg.output_dir

example :
    getOutputSubdir { input_dir := "/in", output_dir := "/out" }
      { folder_path := "/in/scans/a", folder_name := "a", patient_id := "P1",
        study_date := "20230101" } = "/out/scans/P1_20230101_a" := by decide

example :
    getOutputSubdir { input_dir := "/in", output_dir := "/out" }
      { folder_path := "/in/P1/a", folder_name := "a", patient_id := "P1" } =
      "/out/P1/a" := by decide

example :
    getOutputSubdir { input_dir := "/in", output_dir := "/out", organize_by_folder := false }
      { folder_path := "/in/P1/a", folder_name := "a", patient_id := "P1" } =
      "/out" := by decide

/-- The `-f` output filename template of `_convert_with_dcm2niix`
(`%p` protocol name, `%s` series number, `%d` series description,
`%n` patient name, per the dcm2niix placeholder key). -/
def filenameFormat (include_patient_info : Bool) : String :=
  if include_patient_info then "%p_%s_%d" else "%s_%d"

/-- The dcm2niix command line built by `_convert_with_dcm2niix`. -/
def dcm2niixCmd (cfg : Config) (input_folder output_folder : String) : List String :=
  ["dcm2niix",
   "-z", if cfg.compress then "y" else "n",
   "-f", filenameFormat cfg.include_patient_info,
   "-o", output_folder,
   "-b", "y",
   input_folder]

/-- The observable outcome of `subprocess.run` on the dcm2niix
command: its exit status (stdout/stderr are only logged). -/
structure SubprocResult where
  returncode : Int
deriving DecidableEq, Repr

/-- Which directory entries the `*.nii.gz` / `*.nii` glob of
`_convert_with_dcm2niix` matches: names with the expected extension.
`pathlib.Path.glob` (unlike the `glob` module) places no hidden-file
restriction on `*`, so dot-prefixed names with the extension match
too. -/
def globNiftiMatch (compress : Bool) (name : String) : Bool :=
  strEndsWith name (if compress then ".nii.gz" else ".nii")

/-- `_convert_with_dcm2niix` after the subprocess has run: `proc` is
the completed process and `listing` the destination directory's
entries at that point.  A non-zero exit status only triggers a log
line; the function always returns the full paths of the matching
entries. -/
def convertWithDcm2niix (cfg : Config) (output_folder : String)
    (proc : SubprocResult) (listing : List String) : List String :=
  let _warn := proc.returncode ≠ 0
  (listing.filter (globNiftiMatch cfg.compress)).map (fun name => output_folder ++ "/" ++ name)

example :
    convertWithDcm2niix { input_dir := "/in", output_dir := "/out" } "/out/a"
      ⟨1⟩ ["x.nii.gz", "x.json", "old.nii.gz", "y.nii", "._m.nii.gz"] =
      ["/out/a/x.nii.gz", "/out/a/old.nii.gz", "/out/a/._m.nii.gz"] := by decide

/-- The outcome of `_convert_folder` for one unit, as observed by
`convert_all`: the produced file list, or a raised exception. -/
inductive ConvOutcome where
  | ok (files : List String)
  | raised
deriving DecidableEq, Repr

/-- Assignment `m[k] = v` on a Python dict represented as an
association list: overwrite in place, else append. -/
def dictInsert : List (String × List String) → String → List String →
    List (String × List String)
  | [], k, v => [(k, v)]
  | e :: m, k, v => if e.1 = k then (k, v) :: m else e :: dictInsert m k v

/-- `convert_all` over an already-scanned folder mapping: each run
pairs a scanned `(folder_path, folder_info)` entry with its
conversion outcome.  A successful conversion is recorded under the
resolved output directory; a raised conversion is recorded under the
unit's source `folder_path` with an empty list. -/
def convertAll (cfg : Config)
    (runs : List ((String × DicomFolder) × ConvOutcome)) :
    List (String × List String) :=
  runs.foldl
    (fun results run =>
      match run.2 with
      | .ok files => dictInsert results (getOutputSubdir cfg run.1.2) files
      | .raised => dictInsert results run.1.1 [])
    []

example :
    analyzeDicomFolder "/in/a"
      [⟨true, some { seriesInstanceUID := some "u2", seriesDescription := some " T2 ",
                     patientID := some "P1", studyDate := some "20230101" }⟩,
       ⟨true, some { seriesInstanceUID := some "u1", seriesDescription := some "T1" }⟩] =
    some { folder_path := "/in/a", folder_name := "a", patient_id := "P1",
           study_date := "20230101", study_description := "",
           series_count := 2, file_count := 2,
           series_descriptions := ["T1", "T2"] } := by decide

/-! ### Properties of the sanitiser `_clean_path_name` -/

theorem mem_foldl_replaceStep :
    ∀ (cs l : List Char) (c : Char),
      c ∈ cs.foldl (fun acc x => acc.map (fun y => if y = x then '_' else y)) l →
      c ∈ l ∨ c = '_'
  | [], _, _, h => Or.inl h
  | x :: cs, l, c, h => by
    have h2 := mem_foldl_replaceStep cs (l.map (fun y => if y = x then '_' else y)) c h
    rcases h2 with h2 | h2
    · rcases List.mem_map.1 h2 with ⟨d, hd, hdc⟩
      by_cases hdx : d = x
      · simp [hdx] at hdc
        exact Or.inr hdc.symm
      · simp [hdx] at hdc
        exact Or.inl (hdc ▸ hd)
    · exact Or.inr h2

theorem not_mem_foldl_replaceStep :
    ∀ (cs l : List Char) (x : Char), x ∈ cs → x ≠ '_' →
      x ∉ cs.foldl (fun acc y => acc.map (fun z => if z = y then '_' else z)) l
  | [], _, _, hx, _ => by cases hx
  | a :: cs, l, x, hx, hu => by
    intro hmem
    rcases List.mem_cons.1 hx with rfl | hx
    · have h2 := mem_foldl_replaceStep cs (l.map (fun z => if z = x then '_' else z)) x hmem
      rcases h2 with h2 | h2
      · rcases List.mem_map.1 h2 with ⟨d, _, hdc⟩
        by_cases hdx : d = x
        · simp [hdx] at hdc
          exact hu hdc.symm
        · simp [hdx] at hdc
      · exact hu h2
    · exact not_mem_foldl_replaceStep cs (l.map (fun z => if z = a then '_' else z)) x hx hu hmem

theorem mem_replaceInvalid (l : List Char) (c : Char) (h : c ∈ replaceInvalid l) :
    c ∉ invalidChars := by
  intro hc
  refine not_mem_foldl_replaceStep invalidChars l c hc ?_ h
  fin_cases hc <;> decide

theorem pySplitAux_words :
    ∀ (s acc : List Char), (∀ c ∈ acc, isPyWhite c = false) →
      ∀ w ∈ pySplitAux s acc, w ≠ [] ∧ ∀ c ∈ w, isPyWhite c = false
  | [], acc, hacc, w, hw => by
    unfold pySplitAux at hw
    by_cases h : acc.isEmpty = true
    · simp [h] at hw
    · simp [h] at hw
      subst hw
      refine ⟨?_, fun c hc => hacc c (List.mem_reverse.1 hc)⟩
      simp only [List.isEmpty_iff] at h
      simpa using h
  | c :: cs, acc, hacc, w, hw => by
    unfold pySplitAux at hw
    by_cases hwc : isPyWhite c = true
    · rw [if_pos hwc] at hw
      by_cases hacc0 : acc.isEmpty = true
      · rw [if_pos hacc0] at hw
        exact pySplitAux_words cs [] (by simp) w hw
      · rw [if_neg hacc0] at hw
        rcases List.mem_cons.1 hw with rfl | hw
        · refine ⟨?_, fun d hd => hacc d (List.mem_reverse.1 hd)⟩
          simp only [List.isEmpty_iff] at hacc0
          simpa using hacc0
        · exact pySplitAux_words cs [] (by simp) w hw
    · rw [if_neg hwc] at hw
      refine pySplitAux_words cs (c :: acc) ?_ w hw
      intro d hd
      rcases List.mem_cons.1 hd with rfl | hd
      · exact Bool.not_eq_true _ ▸ (eq_false_of_ne_true hwc)
      · exact hacc d hd

theorem pySplitAux_mem :
    ∀ (s acc w : List Char) (c : Char), w ∈ pySplitAux s acc → c ∈ w →
      c ∈ acc ∨ c ∈ s
  | [], acc, w, c, hw, hc => by
    unfold pySplitAux at hw
    by_cases h : acc.isEmpty = true
    · simp [h] at hw
    · simp [h] at hw
      subst hw
      exact Or.inl (List.mem_reverse.1 hc)
  | a :: s, acc, w, c, hw, hc => by
    unfold pySplitAux at hw
    by_cases hwa : isPyWhite a = true
    · rw [if_pos hwa] at hw
      by_cases hacc0 : acc.isEmpty = true
      · rw [if_pos hacc0] at hw
        rcases pySplitAux_mem s [] w c hw hc with h | h
        · cases h
        · exact Or.inr (List.mem_cons_of_mem a h)
      · rw [if_neg hacc0] at hw
        rcases List.mem_cons.1 hw with rfl | hw
        · exact Or.inl (List.mem_reverse.1 hc)
        · rcases pySplitAux_mem s [] w c hw hc with h | h
          · cases h
          · exact Or.inr (List.mem_cons_of_mem a h)
    · rw [if_neg hwa] at hw
      rcases pySplitAux_mem s (a :: acc) w c hw hc with h | h
      · rcases List.mem_cons.1 h with rfl | h
        · exact Or.inr (List.mem_cons_self _ _)
        · exact Or.inl h
      · exact Or.inr (List.mem_cons_of_mem a h)

theorem mem_joinSep (sep : Char) :
    ∀ (ws : List (List Char)) (c : Char), c ∈ joinSep sep ws →
      c = sep ∨ ∃ w ∈ ws, c ∈ w
  | [], c, h => by simp [joinSep] at h
  | [w], c, h => by
    simp only [joinSep] at h
    exact Or.inr ⟨w, by simp, h⟩
  | w :: w2 :: ws, c, h => by
    simp only [joinSep] at h
    rcases List.mem_append.1 h with h | h
    · exact Or.inr ⟨w, by simp, h⟩
    · rcases List.mem_cons.1 h with rfl | h
      · exact Or.inl rfl
      · rcases mem_joinSep sep (w2 :: ws) c h with h | ⟨w3, hw3, hc⟩
        · exact Or.inl h
        · exact Or.inr ⟨w3, List.mem_cons_of_mem _ hw3, hc⟩

theorem joinSep_ne_nil (sep : Char) :
    ∀ (w : List Char) (ws : List (List Char)), w ≠ [] → joinSep sep (w :: ws) ≠ []
  | w, [], hw => by simpa [joinSep] using hw
  | w, w2 :: ws, _ => by
    simp only [joinSep]
    intro h
    rcases List.append_eq_nil.1 h with ⟨_, h2⟩
    cases h2

theorem head?_joinSep (sep : Char) :
    ∀ (w : List Char) (ws : List (List Char)), w ≠ [] →
      (joinSep sep (w :: ws)).head? = w.head?
  | w, [], _ => by simp [joinSep]
  | w, w2 :: ws, hw => by
    rcases w with _ | ⟨a, w1⟩
    · exact absurd rfl hw
    · simp only [joinSep]
      rfl

theorem getLast?_joinSep (sep : Char) :
    ∀ (ws : List (List Char)), (∀ w ∈ ws, w ≠ []) → ∀ c,
      (joinSep sep ws).getLast? = some c → ∃ w ∈ ws, c ∈ w
  | [], _, c, h => by simp [joinSep] at h
  | [w], _, c, h => by
    simp only [joinSep] at h
    exact ⟨w, by simp, List.mem_of_getLast?_eq_some h⟩
  | w :: w2 :: ws, hne, c, h => by
    simp only [joinSep] at h
    rw [List.getLast?_append] at h
    have hjoin : joinSep sep (w2 :: ws) ≠ [] :=
      joinSep_ne_nil sep w2 ws (hne w2 (by simp))
    have hlast : (sep :: joinSep sep (w2 :: ws)).getLast? = (joinSep sep (w2 :: ws)).getLast? := by
      rcases List.exists_cons_of_ne_nil hjoin with ⟨j, js, hj⟩
      rw [hj]
      exact List.getLast?_cons_cons
    rw [hlast] at h
    have hsome : (joinSep sep (w2 :: ws)).getLast?.isSome := by
      simpa using hjoin
    rcases Option.isSome_iff_exists.1 hsome with ⟨d, hd⟩
    rw [hd] at h
    simp only [Option.or_some, Option.some.injEq] at h
    rw [h] at hd
    rcases getLast?_joinSep sep (w2 :: ws) (fun u hu => hne u (List.mem_cons_of_mem _ hu)) c hd
      with ⟨w3, hw3, hc⟩
    exact ⟨w3, List.mem_cons_of_mem _ hw3, hc⟩

theorem chain'_of_all_nonwhite :
    ∀ (l : List Char), (∀ c ∈ l, isPyWhite c = false) →
      List.Chain' (fun a b => isPyWhite a = false ∨ isPyWhite b = false) l
  | [], _ => List.chain'_nil
  | [_], _ => List.chain'_singleton _
  | a :: b :: l, h => by
    refine List.chain'_cons.2 ⟨Or.inl (h a (by simp)), ?_⟩
    exact chain'_of_all_nonwhite (b :: l) (fun c hc => h c (List.mem_cons_of_mem _ hc))

theorem chain'_joinSep :
    ∀ (ws : List (List Char)),
      (∀ w ∈ ws, w ≠ [] ∧ ∀ c ∈ w, isPyWhite c = false) →
      List.Chain' (fun a b => isPyWhite a = false ∨ isPyWhite b = false) (joinSep ' ' ws)
  | [], _ => by simp [joinSep]
  | [w], hws => by
    simp only [joinSep]
    exact chain'_of_all_nonwhite w (hws w (by simp)).2
  | w :: w2 :: ws, hws => by
    simp only [joinSep]
    refine List.chain'_append.2
      ⟨chain'_of_all_nonwhite w (hws w (by simp)).2, ?_, ?_⟩
    · refine List.chain'_cons'.2
        ⟨?_, chain'_joinSep (w2 :: ws) (fun u hu => hws u (List.mem_cons_of_mem _ hu))⟩
      intro y hy
      rw [head?_joinSep ' ' w2 ws (hws w2 (by simp)).1] at hy
      exact Or.inr ((hws w2 (by simp)).2 y (List.mem_of_mem_head? hy))
    · intro x hx y _
      have hxw : x ∈ w := List.mem_of_getLast?_eq_some (Option.mem_def.1 hx)
      exact Or.inl ((hws w (by simp)).2 x hxw)

theorem dropWhile_white_eq_self (l : List Char)
    (h : ∀ c ∈ l.head?, isPyWhite c = false) :
    l.dropWhile isPyWhite = l := by
  cases l with
  | nil => rfl
  | cons a l =>
    have ha : isPyWhite a = false := h a (by simp)
    simp [List.dropWhile_cons, ha]

theorem stripChars_eq_self (l : List Char)
    (h1 : ∀ c ∈ l.head?, isPyWhite c = false)
    (h2 : ∀ c ∈ l.getLast?, isPyWhite c = false) :
    stripChars l = l := by
  unfold stripChars
  rw [dropWhile_white_eq_self l h1]
  rw [dropWhile_white_eq_self l.reverse (by rw [List.head?_reverse]; exact h2)]
  exact List.reverse_reverse l

/-- C9: for every input string, `_clean_path_name` yields a string
containing none of the seven characters `< > : " | ? *`, with no two
consecutive whitespace characters, and with no leading or trailing
whitespace. -/
theorem c9_clean_path_sanitisation (s : String) :
    (∀ c ∈ (cleanPathName s).data, c ∉ invalidChars) ∧
    List.Chain' (fun a b => isPyWhite a = false ∨ isPyWhite b = false)
      (cleanPathName s).data ∧
    (∀ c ∈ (cleanPathName s).data.head?, isPyWhite c = false) ∧
    (∀ c ∈ (cleanPathName s).data.getLast?, isPyWhite c = false) := by
  have hwords : ∀ w ∈ pySplit (replaceInvalid s.data),
      w ≠ [] ∧ ∀ c ∈ w, isPyWhite c = false :=
    pySplitAux_words (replaceInvalid s.data) [] (by simp)
  have hhead : ∀ c ∈ (joinSep ' ' (pySplit (replaceInvalid s.data))).head?,
      isPyWhite c = false := by
    cases hws : pySplit (replaceInvalid s.data) with
    | nil => simp [joinSep]
    | cons w ws2 =>
      intro c hc
      rw [head?_joinSep ' ' w ws2 (hwords w (by rw [hws]; simp)).1] at hc
      exact (hwords w (by rw [hws]; simp)).2 c (List.mem_of_mem_head? hc)
  have hlast : ∀ c ∈ (joinSep ' ' (pySplit (replaceInvalid s.data))).getLast?,
      isPyWhite c = false := by
    intro c hc
    rcases getLast?_joinSep ' ' (pySplit (replaceInvalid s.data))
        (fun w hw => (hwords w hw).1) c (Option.mem_def.1 hc) with ⟨w, hw, hcw⟩
    exact (hwords w hw).2 c hcw
  have hdata : (cleanPathName s).data =
      joinSep ' ' (pySplit (replaceInvalid s.data)) :=
    stripChars_eq_self _ hhead hlast
  refine ⟨?_, ?_, ?_, ?_⟩
  · intro c hc
    rw [hdata] at hc
    rcases mem_joinSep ' ' _ c hc with rfl | ⟨w, hw, hcw⟩
    · decide
    · rcases pySplitAux_mem (replaceInvalid s.data) [] w c hw hcw with h | h
      · cases h
      · exact mem_replaceInvalid _ c h
  · rw [hdata]
    exact chain'_joinSep _ hwords
  · rw [hdata]
    exact hhead
  · rw [hdata]
    exact hlast

/-! ### Properties of `sorted()` and the series-description set -/

theorem lexLtChars_iff :
    ∀ (as bs : List Char), lexLtChars as bs = true ↔ List.Lex (· < ·) as bs
  | [], [] => by
    simp only [lexLtChars, Bool.false_eq_true, false_iff]
    exact List.Lex.not_nil_right _ _
  | [], _ :: _ => by
    simp only [lexLtChars, true_iff]
    exact List.Lex.nil
  | _ :: _, [] => by
    simp only [lexLtChars, Bool.false_eq_true, false_iff]
    exact List.Lex.not_nil_right _ _
  | a :: as, b :: bs => by
    simp only [lexLtChars, Bool.or_eq_true, Bool.and_eq_true, decide_eq_true_eq]
    constructor
    · rintro (h | ⟨rfl, h⟩)
      · exact List.Lex.rel h
      · exact List.Lex.cons ((lexLtChars_iff as bs).1 h)
    · intro h
      cases h with
      | rel h => exact Or.inl h
      | cons h => exact Or.inr ⟨rfl, (lexLtChars_iff as bs).2 h⟩

theorem strLtB_iff (a b : String) : strLtB a b = true ↔ a < b := by
  rw [String.lt_iff_toList_lt]
  exact lexLtChars_iff a.data b.data

theorem strLtB_false_iff (a b : String) : strLtB a b = false ↔ b ≤ a := by
  constructor
  · intro hf
    refine not_lt.1 (fun hlt => ?_)
    rw [(strLtB_iff a b).2 hlt] at hf
    cases hf
  · intro hle
    cases hb : strLtB a b
    · rfl
    · exact absurd ((strLtB_iff a b).1 hb) (not_lt.2 hle)

theorem mem_orderedInsertStr (x z : String) :
    ∀ (l : List String), z ∈ orderedInsertStr x l ↔ z = x ∨ z ∈ l
  | [] => by simp [orderedInsertStr]
  | y :: ys => by
    simp only [orderedInsertStr]
    by_cases h : strLtB y x = true
    · rw [if_pos h]
      rw [List.mem_cons, mem_orderedInsertStr x z ys, List.mem_cons]
      tauto
    · rw [if_neg h]
      rw [List.mem_cons]

theorem perm_orderedInsertStr (x : String) :
    ∀ (l : List String), List.Perm (orderedInsertStr x l) (x :: l)
  | [] => List.Perm.refl _
  | y :: ys => by
    simp only [orderedInsertStr]
    by_cases h : strLtB y x = true
    · rw [if_pos h]
      exact ((perm_orderedInsertStr x ys).cons y).trans (List.Perm.swap x y ys)
    · rw [if_neg h]

theorem perm_pySorted : ∀ (l : List String), List.Perm (pySorted l) l
  | [] => List.Perm.refl _
  | x :: xs =>
    (perm_orderedInsertStr x (pySorted xs)).trans ((perm_pySorted xs).cons x)

theorem sorted_orderedInsertStr (x : String) :
    ∀ (l : List String), List.Sorted (· ≤ ·) l →
      List.Sorted (· ≤ ·) (orderedInsertStr x l)
  | [], _ => by simp [orderedInsertStr]
  | y :: ys, h => by
    simp only [orderedInsertStr]
    by_cases hc : strLtB y x = true
    · rw [if_pos hc]
      refine List.sorted_cons.2 ⟨?_, sorted_orderedInsertStr x ys (List.sorted_cons.1 h).2⟩
      intro z hz
      rcases (mem_orderedInsertStr x z ys).1 hz with rfl | hz
      · exact le_of_lt ((strLtB_iff y z).1 hc)
      · exact (List.sorted_cons.1 h).1 z hz
    · rw [if_neg hc]
      have hxy : x ≤ y := (strLtB_false_iff y x).1 (Bool.eq_false_iff.2 hc)
      refine List.sorted_cons.2 ⟨?_, h⟩
      intro z hz
      rcases List.mem_cons.1 hz with rfl | hz
      · exact hxy
      · exact hxy.trans ((List.sorted_cons.1 h).1 z hz)

theorem sorted_pySorted : ∀ (l : List String), List.Sorted (· ≤ ·) (pySorted l)
  | [] => by simp [pySorted]
  | x :: xs => sorted_orderedInsertStr x (pySorted xs) (sorted_pySorted xs)

theorem mem_insertNew (x z : String) (l : List String) :
    z ∈ insertNew x l ↔ z = x ∨ z ∈ l := by
  unfold insertNew
  by_cases h : x ∈ l
  · rw [if_pos h]
    constructor
    · exact Or.inr
    · rintro (rfl | hz)
      · exact h
      · exact hz
  · rw [if_neg h]
    simp only [List.mem_append, List.mem_singleton]
    tauto

theorem nodup_insertNew (x : String) (l : List String) (h : l.Nodup) :
    (insertNew x l).Nodup := by
  unfold insertNew
  by_cases hx : x ∈ l
  · rwa [if_pos hx]
  · rw [if_neg hx]
    have := List.Nodup.concat hx h
    simpa [List.concat_eq_append] using this

theorem collectSeries_cons_none (f : FileData) (fs : List FileData)
    (st : List String × List String) (hp : f.parse = none) :
    collectSeries (f :: fs) st = collectSeries fs st := by
  conv_lhs => unfold collectSeries
  rw [hp]

theorem collectSeries_cons_some (f : FileData) (fs : List FileData)
    (st : List String × List String) (d : DicomMeta) (hp : f.parse = some d) :
    collectSeries (f :: fs) st =
      collectSeries fs
        ((match d.seriesInstanceUID with
          | some u => insertNew u st.1
          | none => st.1),
         (match d.seriesDescription with
          | some sd => if pyStrip sd ≠ "" then insertNew (pyStrip sd) st.2 else st.2
          | none => st.2)) := by
  conv_lhs => unfold collectSeries
  rw [hp]

theorem collectSeries_descs :
    ∀ (files : List FileData) (st : List String × List String),
      st.2.Nodup → (∀ d ∈ st.2, d ≠ "") →
      (collectSeries files st).2.Nodup ∧ ∀ d ∈ (collectSeries files st).2, d ≠ ""
  | [], _, h1, h2 => ⟨h1, h2⟩
  | f :: fs, st, h1, h2 => by
    cases hp : f.parse with
    | none =>
      rw [collectSeries_cons_none f fs st hp]
      exact collectSeries_descs fs st h1 h2
    | some d =>
      rw [collectSeries_cons_some f fs st d hp]
      refine collectSeries_descs fs _ ?_ ?_
      · show (match d.seriesDescription with
          | some sd => if pyStrip sd ≠ "" then insertNew (pyStrip sd) st.2 else st.2
          | none => st.2).Nodup
        cases hd : d.seriesDescription with
        | none => exact h1
        | some sd =>
          show (if pyStrip sd ≠ "" then insertNew (pyStrip sd) st.2 else st.2).Nodup
          by_cases hsd : pyStrip sd ≠ ""
          · rw [if_pos hsd]
            exact nodup_insertNew _ _ h1
          · rw [if_neg hsd]
            exact h1
      · show ∀ e ∈ (match d.seriesDescription with
          | some sd => if pyStrip sd ≠ "" then insertNew (pyStrip sd) st.2 else st.2
          | none => st.2), e ≠ ""
        cases hd : d.seriesDescription with
        | none => exact h2
        | some sd =>
          show ∀ e ∈ (if pyStrip sd ≠ "" then insertNew (pyStrip sd) st.2 else st.2), e ≠ ""
          by_cases hsd : pyStrip sd ≠ ""
          · rw [if_pos hsd]
            intro e he
            rcases (mem_insertNew _ e _).1 he with rfl | he
            · exact hsd
            · exact h2 e he
          · rw [if_neg hsd]
            exact h2

/-- C10: every FolderUnit produced by the scan has a
`series_descriptions` list without duplicates, without empty strings,
and sorted in (lexicographic) order. -/
theorem c10_series_descriptions (p : String) (files : List FileData)
    (info : DicomFolder) (h : analyzeDicomFolder p files = some info) :
    info.series_descriptions.Nodup ∧
    (∀ d ∈ info.series_descriptions, d ≠ "") ∧
    List.Sorted (· ≤ ·) info.series_descriptions := by
  cases files with
  | nil => simp [analyzeDicomFolder] at h
  | cons f0 fs =>
    simp only [analyzeDicomFolder] at h
    split at h
    · exact absurd h (by simp)
    · simp only [Option.some.injEq] at h
      subst h
      have hst := collectSeries_descs ((f0 :: fs).take 100) ([], []) (by simp) (by simp)
      refine ⟨?_, ?_, sorted_pySorted _⟩
      · exact (perm_pySorted _).nodup_iff.2 hst.1
      · intro d hd
        exact hst.2 d ((perm_pySorted _).mem_iff.1 hd)

/-- Witness for C10 at a concrete folder. -/
theorem c10_series_descriptions_witness :
    analyzeDicomFolder "/in/a"
        [⟨true, some { seriesInstanceUID := some "u2", seriesDescription := some " T2 ",
                       patientID := some "P1", studyDate := some "20230101" }⟩,
         ⟨true, some { seriesInstanceUID := some "u1", seriesDescription := some "T1" }⟩] =
      some { folder_path := "/in/a", folder_name := "a", patient_id := "P1",
             study_date := "20230101", study_description := "",
             series_count := 2, file_count := 2,
             series_descriptions := ["T1", "T2"] } ∧
    (["T1", "T2"] : List String).Nodup ∧
    (∀ d ∈ (["T1", "T2"] : List String), d ≠ "") ∧
    List.Sorted (· ≤ ·) (["T1", "T2"] : List String) := by
  refine ⟨by decide, ?_⟩
  have h := c10_series_descriptions "/in/a"
      [⟨true, some { seriesInstanceUID := some "u2", seriesDescription := some " T2 ",
                     patientID := some "P1", studyDate := some "20230101" }⟩,
       ⟨true, some { seriesInstanceUID := some "u1", seriesDescription := some "T1" }⟩]
      { folder_path := "/in/a", folder_name := "a", patient_id := "P1",
        study_date := "20230101", study_description := "",
        series_count := 2, file_count := 2,
        series_descriptions := ["T1", "T2"] } (by decide)
  exact h

/-! ### The dcm2niix filename template (claim C2)

In dcm2niix's placeholder key (quoted in the source), `%p` is the
protocol name, `%s` the series number, `%d` the series description
and `%n` the patient name. -/

/-- C2 counterexample: with `include_patient_info = true` the command
passes the template `%p_%s_%d` after `-f`, and that template does not
contain the patient-name placeholder `%n`. -/
theorem c2_patient_placeholder_counterexample :
    dcm2niixCmd { input_dir := "/in", output_dir := "/out", include_patient_info := true }
        "/in/a" "/out/a" =
      ["dcm2niix", "-z", "y", "-f", "%p_%s_%d", "-o", "/out/a", "-b", "y", "/in/a"] ∧
    strContains "%p_%s_%d" "%n" = false := by decide

/-- C2 (amended): the template is `%p_%s_%d` (protocol name, series
number, series description) when `include_patient_info` is true and
`%s_%d` when it is false; the placeholder toggled by the flag is the
protocol-name one, and the patient-name placeholder `%n` never
appears. -/
theorem c2_filename_template (cfg : Config) (input_folder output_folder : String) :
    (cfg.include_patient_info = true →
      dcm2niixCmd cfg input_folder output_folder =
        ["dcm2niix", "-z", if cfg.compress then "y" else "n", "-f", "%p_%s_%d",
         "-o", output_folder, "-b", "y", input_folder] ∧
      strContains "%p_%s_%d" "%p" = true ∧
      strContains "%p_%s_%d" "%s" = true ∧
      strContains "%p_%s_%d" "%d" = true ∧
      strContains "%p_%s_%d" "%n" = false) ∧
    (cfg.include_patient_info = false →
      dcm2niixCmd cfg input_folder output_folder =
        ["dcm2niix", "-z", if cfg.compress then "y" else "n", "-f", "%s_%d",
         "-o", output_folder, "-b", "y", input_folder] ∧
      strContains "%s_%d" "%s" = true ∧
      strContains "%s_%d" "%d" = true ∧
      strContains "%s_%d" "%p" = false ∧
      strContains "%s_%d" "%n" = false) := by
  constructor
  · intro h
    refine ⟨?_, by decide, by decide, by decide, by decide⟩
    simp [dcm2niixCmd, filenameFormat, h]
  · intro h
    refine ⟨?_, by decide, by decide, by decide, by decide⟩
    simp [dcm2niixCmd, filenameFormat, h]

/-- Witness for C2 at a concrete configuration. -/
theorem c2_filename_template_witness :
    dcm2niixCmd { input_dir := "/i", output_dir := "/o", include_patient_info := false }
        "/i/a" "/o/a" =
      ["dcm2niix", "-z", "y", "-f", "%s_%d", "-o", "/o/a", "-b", "y", "/i/a"] ∧
    strContains "%s_%d" "%n" = false := by
  have h := (c2_filename_template
      { input_dir := "/i", output_dir := "/o", include_patient_info := false }
      "/i/a" "/o/a").2 rfl
  exact ⟨h.1, h.2.2.2.2⟩

/-! ### Output-file collection by the external-converter strategy -/

theorem append_right_cancel_str (p a b : String) (h : p ++ a = p ++ b) : a = b := by
  apply String.ext
  have hd := congrArg String.data h
  rw [String.data_append, String.data_append] at hd
  exact List.append_cancel_left hd

/-- C7: the produced-file list returned by `_convert_with_dcm2niix`
is exactly the destination-directory entries matching the expected
extension after the subprocess returns — including entries that were
already present before the invocation. -/
theorem c7_collects_exactly_matching (cfg : Config) (output_folder : String)
    (proc : SubprocResult) (listing : List String) (name : String) :
    ((output_folder ++ "/" ++ name) ∈ convertWithDcm2niix cfg output_folder proc listing ↔
      name ∈ listing ∧ globNiftiMatch cfg.compress name = true) ∧
    (∀ pre post : List String, listing = pre ++ post → name ∈ pre →
      globNiftiMatch cfg.compress name = true →
      (output_folder ++ "/" ++ name) ∈ convertWithDcm2niix cfg output_folder proc listing) := by
  have hmain : (output_folder ++ "/" ++ name) ∈ convertWithDcm2niix cfg output_folder proc listing ↔
      name ∈ listing ∧ globNiftiMatch cfg.compress name = true := by
    constructor
    · intro h
      rcases List.mem_map.1 h with ⟨a, ha, heq⟩
      have hab := append_right_cancel_str (output_folder ++ "/") a name heq
      subst hab
      exact ⟨(List.mem_filter.1 ha).1, (List.mem_filter.1 ha).2⟩
    · intro ⟨h1, h2⟩
      exact List.mem_map.2 ⟨name, List.mem_filter.2 ⟨h1, h2⟩, rfl⟩
  refine ⟨hmain, ?_⟩
  intro pre post hsplit hpre hmatch
  refine hmain.2 ⟨?_, hmatch⟩
  rw [hsplit]
  exact List.mem_append.2 (Or.inl hpre)

/-- Witness for C7: a file already present in the destination before
the run — here a hidden `._`-prefixed one, which `Path.glob` also
matches — is reported as produced. -/
theorem c7_collects_exactly_matching_witness :
    ("/out/a" ++ "/" ++ "._apple.nii.gz") ∈
      convertWithDcm2niix { input_dir := "/in", output_dir := "/out" } "/out/a" ⟨0⟩
        (["._apple.nii.gz", "old.nii.gz"] ++ ["x.nii.gz", "x.json"]) :=
  (c7_collects_exactly_matching { input_dir := "/in", output_dir := "/out" } "/out/a" ⟨0⟩
      (["._apple.nii.gz", "old.nii.gz"] ++ ["x.nii.gz", "x.json"]) "._apple.nii.gz").2
    ["._apple.nii.gz", "old.nii.gz"] ["x.nii.gz", "x.json"] rfl (by decide) (by decide)

/-- C8: a non-zero converter exit status does not change what is
returned — the destination listing is still filtered for the expected
extension, identically to any other exit status. -/
theorem c8_nonzero_exit_still_collects (cfg : Config) (output_folder : String)
    (proc proc2 : SubprocResult) (listing : List String) :
    convertWithDcm2niix cfg output_folder proc listing =
      convertWithDcm2niix cfg output_folder proc2 listing ∧
    (proc.returncode ≠ 0 →
      convertWithDcm2niix cfg output_folder proc listing =
        (listing.filter (globNiftiMatch cfg.compress)).map
          (fun name => output_folder ++ "/" ++ name)) :=
  ⟨rfl, fun _ => rfl⟩

/-- Witness for C8: exit code 1 with one `.nii.gz` written still
reports that file. -/
theorem c8_nonzero_exit_still_collects_witness :
    (1 : Int) ≠ 0 ∧
    convertWithDcm2niix { input_dir := "/in", output_dir := "/out" } "/out/a" ⟨1⟩
        ["f.nii.gz"] = ["/out/a/f.nii.gz"] := by
  refine ⟨by decide, ?_⟩
  have h := (c8_nonzero_exit_still_collects { input_dir := "/in", output_dir := "/out" }
      "/out/a" ⟨1⟩ ⟨1⟩ ["f.nii.gz"]).2 (by decide)
  exact h.trans (by decide)

/-! ### The 100-file metadata sampling cap (claim C4) -/

/-- C4: for a folder with more than 100 imaging files, the analysis
samples only the first 100 files — analysing just those first 100
yields the very same FolderUnit except that `file_count` reports the
full list length instead of 100. -/
theorem c4_metadata_sampling_cap (p : String) (files : List FileData)
    (info : DicomFolder) (hlen : 100 < files.length)
    (h : analyzeDicomFolder p files = some info) :
    info.file_count = files.length ∧
    analyzeDicomFolder p (files.take 100) = some { info with file_count := 100 } := by
  cases files with
  | nil => simp at hlen
  | cons f0 fs =>
    have hfs : 99 < fs.length := by
      simp only [List.length_cons] at hlen
      omega
    have ht : (f0 :: fs).take 100 = f0 :: fs.take 99 := rfl
    have hlen99 : (fs.take 99).length = 99 := by
      rw [List.length_take]
      omega
    have ht2 : (f0 :: fs.take 99).take 100 = f0 :: fs.take 99 := by
      rw [show (f0 :: fs.take 99).take 100 = f0 :: (fs.take 99).take 99 from rfl]
      rw [List.take_take]
      norm_num
    rw [ht]
    simp only [analyzeDicomFolder] at h ⊢
    split at h
    · exact absurd h (by simp)
    · rename_i dcm hdcm
      simp only [Option.some.injEq] at h
      subst h
      refine ⟨rfl, ?_⟩
      simp only [hdcm, ht, ht2, Option.some.injEq, DicomFolder.mk.injEq, List.length_cons]
      simp [hlen99]

/-- A sample imaging file used in concrete witnesses: valid preamble
magic, one series `u1` described `T1`. -/
def demoFile : FileData :=
  ⟨true, some { seriesInstanceUID := some "u1", seriesDescription := some "T1" }⟩

/-- 150 copies of `demoFile`. -/
def demoFiles150 : List FileData :=
  List.replicate 150 demoFile

/-- The FolderUnit the analysis derives from `demoFiles150`. -/
def demoInfo150 : DicomFolder :=
  { folder_path := "/in/a", folder_name := "a", patient_id := "Unknown",
    study_date := "", study_description := "", series_count := 1,
    file_count := 150, series_descriptions := ["T1"] }

set_option maxRecDepth 40000 in
/-- Witness for C4: 150 identical imaging files; `file_count` is 150
while the first 100 alone already determine every other field. -/
theorem c4_metadata_sampling_cap_witness :
    100 < demoFiles150.length ∧
    demoInfo150.file_count = demoFiles150.length ∧
    analyzeDicomFolder "/in/a" (demoFiles150.take 100) =
      some { demoInfo150 with file_count := 100 } := by
  have h := c4_metadata_sampling_cap "/in/a" demoFiles150 demoInfo150
      (by decide) (by decide)
  exact ⟨by decide, h.1, h.2⟩

/-! ### Output subdirectory resolution under patient-info naming
(claim C5) -/

/-- C5: with `organize_by_folder` and `include_patient_info` both
set — when the patient id is non-empty and not textually present in
the cleaned relative path, the leaf segment is replaced by the
underscore-join of the sanitised patient id, the study date (when
non-empty) and the leaf name; when the patient id already occurs in
the cleaned relative path, the relative path is left unchanged. -/
theorem c5_patient_leaf_renaming (cfg : Config) (info : DicomFolder)
    (h1 : cfg.organize_by_folder = true) (h2 : cfg.include_patient_info = true) :
    (info.patient_id ≠ "" →
      strContains (cleanPathName (relpath info.folder_path cfg.input_dir))
          info.patient_id = false →
      getOutputSubdir cfg info =
        pathJoin cfg.output_dir
          (let rel1 := cleanPathName (relpath info.folder_path cfg.input_dir)
           let nf : String := ⟨joinSep '_'
             (([cleanPathName info.patient_id] ++
               (if info.study_date != "" then [info.study_date] else []) ++
               [basename rel1]).map String.data)⟩
           if dirname rel1 != "" then dirname rel1 ++ "/" ++ nf else nf)) ∧
    (strContains (cleanPathName (relpath info.folder_path cfg.input_dir))
        info.patient_id = true →
      getOutputSubdir cfg info =
        pathJoin cfg.output_dir (cleanPathName (relpath info.folder_path cfg.input_dir))) := by
  constructor
  · intro hpid hsub
    simp only [getOutputSubdir, h1, h2, hsub, if_true]
    simp [hpid]
  · intro hsub
    by_cases hpid : info.patient_id = ""
    · simp [getOutputSubdir, h1, h2, hpid]
    · simp [getOutputSubdir, h1, h2, hsub, hpid]

/-- The configuration used in concrete resolver witnesses. -/
def demoCfg : Config :=
  { input_dir := "/in", output_dir := "/out" }

/-- A FolderUnit whose patient id does not occur in its relative
path. -/
def demoUnitP1 : DicomFolder :=
  { folder_path := "/in/s/a", folder_name := "a", patient_id := "P1",
    study_date := "20230101" }

/-- Witness for C5: the leaf `a` of `s/a` becomes
`P1_20230101_a`. -/
theorem c5_patient_leaf_renaming_witness :
    demoUnitP1.patient_id ≠ "" ∧
    strContains (cleanPathName (relpath demoUnitP1.folder_path demoCfg.input_dir))
        demoUnitP1.patient_id = false ∧
    getOutputSubdir demoCfg demoUnitP1 = "/out/s/P1_20230101_a" := by
  have h := (c5_patient_leaf_renaming demoCfg demoUnitP1 rfl rfl).1 (by decide) (by decide)
  exact ⟨by decide, by decide, h.trans (by decide)⟩

/-! ### The results dictionary of `convert_all` (claims C1, C6) -/

theorem dictInsert_lookup_self :
    ∀ (m : List (String × List String)) (k : String) (v : List String),
      (dictInsert m k v).lookup k = some v
  | [], k, v => by simp [dictInsert, List.lookup]
  | e :: m, k, v => by
    by_cases h : e.1 = k
    · simp [dictInsert, h, List.lookup]
    · simp only [dictInsert, if_neg h]
      rw [List.lookup]
      have : (k == e.1) = false := by
        simp only [beq_eq_false_iff_ne, ne_eq]
        exact fun hk => h hk.symm
      rw [this]
      exact dictInsert_lookup_self m k v

theorem dictInsert_lookup_other :
    ∀ (m : List (String × List String)) (k k' : String) (v : List String), k' ≠ k →
      (dictInsert m k v).lookup k' = m.lookup k'
  | [], k, k', v, hk => by
    simp only [dictInsert, List.lookup]
    rw [show (k' == k) = false by simpa using hk]
  | e :: m, k, k', v, hk => by
    by_cases h : e.1 = k
    · simp only [dictInsert, if_pos h]
      rw [List.lookup, List.lookup, show (k' == k) = false by simpa using hk,
        show (k' == e.1) = false by rw [h]; simpa using hk]
    · simp only [dictInsert, if_neg h]
      rw [List.lookup, List.lookup]
      cases hbe : k' == e.1
      · exact dictInsert_lookup_other m k k' v hk
      · rfl

theorem dictInsert_keys :
    ∀ (m : List (String × List String)) (k : String) (v : List String),
      (dictInsert m k v).map Prod.fst =
        if k ∈ m.map Prod.fst then m.map Prod.fst else m.map Prod.fst ++ [k]
  | [], k, v => by simp [dictInsert]
  | e :: m, k, v => by
    by_cases h : e.1 = k
    · simp [dictInsert, h]
    · have hne : k ≠ e.1 := fun hk => h hk.symm
      simp only [dictInsert, if_neg h, List.map_cons, dictInsert_keys m k v, List.mem_cons]
      by_cases hm : k ∈ m.map Prod.fst
      · simp [hm, hne]
      · simp [hm, hne]

theorem dictInsert_keys_nodup (m : List (String × List String)) (k : String)
    (v : List String) (h : (m.map Prod.fst).Nodup) :
    ((dictInsert m k v).map Prod.fst).Nodup := by
  rw [dictInsert_keys]
  by_cases hm : k ∈ m.map Prod.fst
  · rwa [if_pos hm]
  · rw [if_neg hm]
    have := List.Nodup.concat hm h
    simpa [List.concat_eq_append] using this

/-- The produced-file lists of the successful conversions of a run,
in conversion order. -/
def okFilesOf (runs : List ((String × DicomFolder) × ConvOutcome)) : List (List String) :=
  runs.filterMap (fun r => match r.2 with | .ok files => some files | .raised => none)

theorem getLast?_cons_or {α : Type} (a : α) :
    ∀ (l : List α), (a :: l).getLast? = l.getLast?.or (some a)
  | [] => rfl
  | b :: l => by
    rw [List.getLast?_cons_cons]
    rcases hx : (b :: l).getLast? with _ | x
    · rw [List.getLast?_eq_none_iff] at hx
      cases hx
    · simp

theorem convertAll_go_lookup (cfg : Config)
    (hres : ∀ info : DicomFolder, getOutputSubdir cfg info = cfg.output_dir) :
    ∀ (runs : List ((String × DicomFolder) × ConvOutcome))
      (m : List (String × List String)),
      (∀ r ∈ runs, r.1.1 ≠ cfg.output_dir) →
      (runs.foldl
        (fun results run =>
          match run.2 with
          | .ok files => dictInsert results (getOutputSubdir cfg run.1.2) files
          | .raised => dictInsert results run.1.1 []) m).lookup cfg.output_dir =
        ((okFilesOf runs).getLast?).or (m.lookup cfg.output_dir)
  | [], m, _ => by simp [okFilesOf]
  | r :: rs, m, hsrc => by
    rw [List.foldl_cons]
    cases hr : r.2 with
    | ok files =>
      have ih := convertAll_go_lookup cfg hres rs (dictInsert m (getOutputSubdir cfg r.1.2) files)
        (fun u hu => hsrc u (List.mem_cons_of_mem _ hu))
      have hv : List.lookup cfg.output_dir (dictInsert m (getOutputSubdir cfg r.1.2) files) =
          some files := by
        rw [hres r.1.2]
        exact dictInsert_lookup_self m cfg.output_dir files
      rw [hv] at ih
      have hok : okFilesOf (r :: rs) = files :: okFilesOf rs := by
        simp [okFilesOf, hr]
      rw [hok, getLast?_cons_or]
      have habs : ((okFilesOf rs).getLast?.or (some files)).or (m.lookup cfg.output_dir) =
          (okFilesOf rs).getLast?.or (some files) := by
        rcases (okFilesOf rs).getLast? with _ | x <;> simp
      exact ih.trans habs.symm
    | raised =>
      have ih := convertAll_go_lookup cfg hres rs (dictInsert m r.1.1 [])
        (fun u hu => hsrc u (List.mem_cons_of_mem _ hu))
      rw [dictInsert_lookup_other m r.1.1 cfg.output_dir []
        (fun he => hsrc r (List.mem_cons_self _ _) he.symm)] at ih
      have hok : okFilesOf (r :: rs) = okFilesOf rs := by
        simp [okFilesOf, hr]
      rw [hok]
      exact ih

theorem convertAll_keys_nodup (cfg : Config) :
    ∀ (runs : List ((String × DicomFolder) × ConvOutcome))
      (m : List (String × List String)), (m.map Prod.fst).Nodup →
      ((runs.foldl
        (fun results run =>
          match run.2 with
          | .ok files => dictInsert results (getOutputSubdir cfg run.1.2) files
          | .raised => dictInsert results run.1.1 []) m).map Prod.fst).Nodup
  | [], m, hm => hm
  | r :: rs, m, hm => by
    rw [List.foldl_cons]
    cases hr : r.2 with
    | ok files =>
      exact convertAll_keys_nodup cfg rs _ (dictInsert_keys_nodup m _ files hm)
    | raised =>
      exact convertAll_keys_nodup cfg rs _ (dictInsert_keys_nodup m _ [] hm)

theorem countP_key_le_one {β : Type} (out : String) :
    ∀ (l : List (String × β)), (l.map Prod.fst).Nodup →
      l.countP (fun e => e.1 == out) ≤ 1 := by
  intro l h
  have hc : l.countP (fun e => e.1 == out) =
      (l.map Prod.fst).countP (fun k => k == out) := by
    rw [List.countP_map]
    rfl
  rw [hc]
  have := List.nodup_iff_count_le_one.1 h out
  rwa [List.count] at this

/-- C6: in flat mode every unit resolves to the output root, each
success is recorded under that single key (overwriting the previous
success, so the value at the output root is the last success's file
list), and the final results mapping holds at most one entry under
the output-root key. -/
theorem c6_flat_mode_single_key (cfg : Config)
    (runs : List ((String × DicomFolder) × ConvOutcome))
    (hflat : cfg.organize_by_folder = false)
    (hsrc : ∀ r ∈ runs, r.1.1 ≠ cfg.output_dir) :
    (∀ info : DicomFolder, getOutputSubdir cfg info = cfg.output_dir) ∧
    (convertAll cfg runs).lookup cfg.output_dir = (okFilesOf runs).getLast? ∧
    (convertAll cfg runs).countP (fun e => e.1 == cfg.output_dir) ≤ 1 := by
  have hres : ∀ info : DicomFolder, getOutputSubdir cfg info = cfg.output_dir := by
    intro info
    simp [getOutputSubdir, hflat]
  refine ⟨hres, ?_, ?_⟩
  · have h := convertAll_go_lookup cfg hres runs [] hsrc
    simpa [convertAll] using h
  · exact countP_key_le_one cfg.output_dir _ (convertAll_keys_nodup cfg runs [] (by simp))

/-- The flat-mode configuration of the concrete C6 witness. -/
def demoFlatCfg : Config :=
  { input_dir := "/in", output_dir := "/out", organize_by_folder := false }

/-- A three-unit flat-mode run: two successes around one raised
conversion. -/
def demoFlatRuns : List ((String × DicomFolder) × ConvOutcome) :=
  [(("/in/a", { folder_path := "/in/a", folder_name := "a" }), .ok ["f1.nii.gz"]),
   (("/in/b", { folder_path := "/in/b", folder_name := "b" }), .raised),
   (("/in/c", { folder_path := "/in/c", folder_name := "c" }), .ok ["f2.nii.gz"])]

/-- Witness for C6: the second success overwrites the first; only the
raised unit keeps a separate (source-keyed) entry. -/
theorem c6_flat_mode_single_key_witness :
    (∀ r ∈ demoFlatRuns, r.1.1 ≠ demoFlatCfg.output_dir) ∧
    convertAll demoFlatCfg demoFlatRuns = [("/out", ["f2.nii.gz"]), ("/in/b", [])] ∧
    (convertAll demoFlatCfg demoFlatRuns).lookup demoFlatCfg.output_dir =
      some ["f2.nii.gz"] ∧
    (convertAll demoFlatCfg demoFlatRuns).countP
      (fun e => e.1 == demoFlatCfg.output_dir) ≤ 1 := by
  have h := c6_flat_mode_single_key demoFlatCfg demoFlatRuns rfl (by decide)
  exact ⟨by decide, by decide, h.2.1.trans (by decide), h.2.2⟩

/-- A FolderUnit with no patient id, for the C1 failing input. -/
def demoUnitNoPid : DicomFolder :=
  { folder_path := "/in/a", folder_name := "a" }

/-- C1 at the failing input: when a unit's conversion raises,
`convert_all` records the empty list under the unit's SOURCE folder
path, not under its resolved output directory path ("/out/a" here),
contradicting the documented output-path keying. -/
theorem c1_raised_unit_keyed_by_source :
    convertAll demoCfg [(("/in/a", demoUnitNoPid), .raised)] = [("/in/a", [])] ∧
    getOutputSubdir demoCfg demoUnitNoPid = "/out/a" ∧
    ("/in/a" : String) ≠ "/out/a" := by decide

/-! ### The folder scan (claim C3) -/

theorem analyzeDicomFolder_file_count (p : String) (files : List FileData)
    (info : DicomFolder) (h : analyzeDicomFolder p files = some info) :
    info.file_count = files.length := by
  cases files with
  | nil => simp [analyzeDicomFolder] at h
  | cons f0 fs =>
    simp only [analyzeDicomFolder] at h
    split at h
    · exact absurd h (by simp)
    · simp only [Option.some.injEq] at h
      subst h
      rfl

mutual

theorem scan_keys_sublist :
    ∀ (t : DirTree),
      List.Sublist ((scanDicomFolders t).map Prod.fst) ((allDirs t).map DirTree.path)
  | .node p fs ds => by
    have hsub := scanList_keys_sublist ds
    simp only [scanDicomFolders, allDirs, List.map_append, List.map_cons, DirTree.path]
    by_cases he : (fs.filter isDicomFile).isEmpty = true
    · rw [if_pos he]
      simp only [List.map_nil, List.nil_append]
      exact hsub.cons p
    · rw [if_neg he]
      cases ha : analyzeDicomFolder p (fs.filter isDicomFile) with
      | none =>
        simp only [List.map_nil, List.nil_append]
        exact hsub.cons p
      | some info =>
        simp only [List.map_cons, List.map_nil, List.cons_append, List.nil_append]
        exact hsub.cons₂ p

theorem scanList_keys_sublist :
    ∀ (ts : List DirTree),
      List.Sublist ((scanList ts).map Prod.fst) ((allDirsList ts).map DirTree.path)
  | [] => by simp [scanList, allDirsList]
  | t :: ts => by
    simp only [scanList, allDirsList, List.map_append]
    exact (scan_keys_sublist t).append (scanList_keys_sublist ts)

end

mutual

theorem scan_mem :
    ∀ (t d : DirTree), d ∈ allDirs t → ∀ (info : DicomFolder),
      (d.files.filter isDicomFile).isEmpty = false →
      analyzeDicomFolder d.path (d.files.filter isDicomFile) = some info →
      (d.path, info) ∈ scanDicomFolders t
  | .node p fs ds, d, hd, info, hne, hana => by
    simp only [allDirs, List.mem_cons] at hd
    rcases hd with rfl | hd
    · simp only [DirTree.files, DirTree.path] at hne hana
      simp only [scanDicomFolders, List.mem_append]
      left
      rw [if_neg (by simp [hne]), hana]
      simp [DirTree.path]
    · simp only [scanDicomFolders, List.mem_append]
      exact Or.inr (scanList_mem ds d hd info hne hana)

theorem scanList_mem :
    ∀ (ts : List DirTree) (d : DirTree), d ∈ allDirsList ts → ∀ (info : DicomFolder),
      (d.files.filter isDicomFile).isEmpty = false →
      analyzeDicomFolder d.path (d.files.filter isDicomFile) = some info →
      (d.path, info) ∈ scanList ts
  | [], d, hd, _, _, _ => by simp [allDirsList] at hd
  | t :: ts, d, hd, info, hne, hana => by
    simp only [allDirsList, List.mem_append] at hd
    simp only [scanList, List.mem_append]
    rcases hd with hd | hd
    · exact Or.inl (scan_mem t d hd info hne hana)
    · exact Or.inr (scanList_mem ts d hd info hne hana)

end

/-- C3 (amended): for every directory reachable from the input root
whose direct-child files include at least one imaging file AND whose
metadata extraction succeeds, the scan result holds exactly one entry
keyed by that directory's path, carrying the analysed FolderUnit,
whose `file_count` is the number of the directory's direct-child
imaging files.  (Directory paths are assumed pairwise distinct, as on
a real filesystem.) -/
theorem c3_scan_mapping (t : DirTree)
    (hnd : ((allDirs t).map DirTree.path).Nodup)
    (d : DirTree) (hd : d ∈ allDirs t) (info : DicomFolder)
    (hne : d.files.filter isDicomFile ≠ [])
    (hana : analyzeDicomFolder d.path (d.files.filter isDicomFile) = some info) :
    (d.path, info) ∈ scanDicomFolders t ∧
    (scanDicomFolders t).countP (fun e => e.1 == d.path) = 1 ∧
    info.file_count = (d.files.filter isDicomFile).length := by
  have hne2 : (d.files.filter isDicomFile).isEmpty = false := by
    rcases hi : (d.files.filter isDicomFile).isEmpty with _ | _
    · rfl
    · rw [List.isEmpty_iff] at hi
      exact absurd hi hne
  have hmem := scan_mem t d hd info hne2 hana
  refine ⟨hmem, ?_, analyzeDicomFolder_file_count _ _ _ hana⟩
  have hle := countP_key_le_one d.path (scanDicomFolders t) ((scan_keys_sublist t).nodup hnd)
  have hpos : 0 < (scanDicomFolders t).countP (fun e => e.1 == d.path) :=
    List.countP_pos_iff.2 ⟨(d.path, info), hmem, by simp⟩
  omega

/-- The input tree of the C3 witness: the root holds no imaging
files; its single subdirectory holds one parseable imaging file. -/
def demoTree : DirTree :=
  .node "/in" [⟨false, none⟩] [.node "/in/a" [demoFile] []]

/-- The FolderUnit scanned from `/in/a` of `demoTree`. -/
def demoTreeInfo : DicomFolder :=
  { folder_path := "/in/a", folder_name := "a", patient_id := "Unknown",
    study_date := "", study_description := "", series_count := 1,
    file_count := 1, series_descriptions := ["T1"] }

/-- Witness for C3 on `demoTree`. -/
theorem c3_scan_mapping_witness :
    ((allDirs demoTree).map DirTree.path).Nodup ∧
    ("/in/a", demoTreeInfo) ∈ scanDicomFolders demoTree ∧
    (scanDicomFolders demoTree).countP (fun e => e.1 == "/in/a") = 1 ∧
    demoTreeInfo.file_count =
      (((DirTree.node "/in/a" [demoFile] []).files).filter isDicomFile).length := by
  have h := c3_scan_mapping demoTree (by decide) (.node "/in/a" [demoFile] [])
      (List.mem_cons_of_mem _ (List.mem_cons_self _ _)) demoTreeInfo (by decide) (by decide)
  exact ⟨by decide, h.1, h.2.1, h.2.2⟩

/-- The failing input for the unamended C3: one directory whose
single file passes the imaging classification (preamble magic) but
whose header parse raises. -/
def demoBadTree : DirTree :=
  .node "/in" [⟨true, none⟩] []

/-- C3 counterexample: `demoBadTree`'s root has one imaging file, yet
the scan mapping is empty — the claim as stated fails when metadata
extraction fails. -/
theorem c3_scan_mapping_counterexample :
    (demoBadTree.files.filter isDicomFile).length = 1 ∧
    scanDicomFolders demoBadTree = [] := by decide

end Dicom2Nifti
